import Mathlib

/-!
# Verification of the `ContextSimplifier` flattened-property simplifier

Shallow embedding of `src/pfb_fhir/simplifier/__init__.py`.

Modelling conventions:
* Python `dict` (insertion-ordered, unique keys) is an association list;
  assignment to an existing key keeps its position, assignment to a new
  key appends at the end, `del` followed by re-assignment moves the key
  to the end.
* A raised Python exception (`AssertionError` for a failed `assert`,
  `StopIteration` for `next(iter([...]))` on an empty list,
  `AttributeError` for an attribute write on `None`, `NameError` for a
  read of an unassigned local, `IndexError` for `[0]` on an empty list)
  is `Except.error` carrying the exception's name.
* The unbounded `while True` loops of `_extensions` are driven by a fuel
  parameter that is generously larger than the number of iterations the
  loops can perform on the given property list (each scanned index needs
  at least one matching key, and one key of length `L` can match at most
  `L` indices); fuel exhaustion is the distinct error `"Fuel"`.
* Property values are the scalars the code actually manipulates
  (strings: the only operations applied to a value are `split('/')` and
  copying), and each `leaf_elements` descriptor is modelled by its `id`
  field, the only field the code reads.
* String primitives are re-implemented structurally on `List Char` so
  that every definition reduces inside the kernel; their semantics match
  the Python operations used by the source (`split` on a one-character
  separator, substring test, `startswith`, `endswith`,
  `replace(old, new)` and `replace(old, new, 1)`).
-/

namespace PfbFhir

/-- `pat.isPrefix? s` : does the char list `s` start with `pat`?
(Python `s.startswith(pat)` on the remaining input.) -/
def isPrefixL : List Char → List Char → Bool
  | [], _ => true
  | _ :: _, [] => false
  | p :: ps, c :: cs => p == c && isPrefixL ps cs

/-- Substring test on char lists (Python `pat in s`). -/
def containsL (pat : List Char) : List Char → Bool
  | [] => pat.isEmpty
  | c :: cs => isPrefixL pat (c :: cs) || containsL pat cs

/-- Replace the first occurrence of `pat` by `rep` (Python `s.replace(pat, rep, 1)`). -/
def replaceFirstL (pat rep : List Char) : List Char → List Char
  | [] => []
  | c :: cs =>
    if isPrefixL pat (c :: cs) then rep ++ (c :: cs).drop pat.length
    else c :: replaceFirstL pat rep cs

/-- Fueled left-to-right replacement of every non-overlapping occurrence of
`pat` by `rep` (Python `s.replace(pat, rep)`); the fuel is instantiated with
more than the input length, which the scan can never exceed. -/
def replaceAllL : Nat → List Char → List Char → List Char → List Char
  | 0, _, _, s => s
  | _ + 1, _, _, [] => []
  | fuel + 1, pat, rep, c :: cs =>
    if isPrefixL pat (c :: cs) then rep ++ replaceAllL fuel pat rep ((c :: cs).drop pat.length)
    else c :: replaceAllL fuel pat rep cs

/-- Split on a one-character separator (Python `s.split(sep)` for the
single-character separators `'.'` and `'/'` used by the source). -/
def splitCharL (sep : Char) : List Char → List (List Char)
  | [] => [[]]
  | c :: cs =>
    if c == sep then [] :: splitCharL sep cs
    else
      match splitCharL sep cs with
      | [] => [[c]]
      | g :: gs => (c :: g) :: gs

/-- Python `s.startswith(pat)`. -/
def strStartsWith (s pat : String) : Bool := isPrefixL pat.data s.data

/-- Python `s.endswith(pat)`. -/
def strEndsWith (s pat : String) : Bool := isPrefixL pat.data.reverse s.data.reverse

/-- Python `pat in s`. -/
def strContains (s pat : String) : Bool := containsL pat.data s.data

/-- Python `s.replace(pat, rep, 1)`. -/
def replaceFirstStr (s pat rep : String) : String :=
  ⟨replaceFirstL pat.data rep.data s.data⟩

/-- Python `s.replace(pat, rep)`. -/
def replaceAllStr (s pat rep : String) : String :=
  ⟨replaceAllL (s.data.length + 1) pat.data rep.data s.data⟩

/-- Python `s.split(sep)` for a one-character separator. -/
def strSplit (s : String) (sep : Char) : List String :=
  (splitCharL sep s.data).map String.mk

/-- Python `s.split(sep)[-1]` (`split` always returns a non-empty list,
so the default is never used). -/
def lastSeg (s : String) (sep : Char) : String := (strSplit s sep).getLastD ""

/-- Decimal digit character. -/
def digitChar : Nat → Char
  | 0 => '0' | 1 => '1' | 2 => '2' | 3 => '3' | 4 => '4'
  | 5 => '5' | 6 => '6' | 7 => '7' | 8 => '8' | _ => '9'

/-- Fueled decimal rendering of a natural number. -/
def natToStrAux : Nat → Nat → List Char
  | 0, _ => []
  | fuel + 1, n =>
    if n < 10 then [digitChar n]
    else natToStrAux fuel (n / 10) ++ [digitChar (n % 10)]

/-- Decimal rendering of a natural number (Python f-string interpolation
of the loop indices). -/
def natToStr (n : Nat) : String := ⟨natToStrAux (n + 1) n⟩

/-- First index of `x` in `l` (Python `l.index(x)`; total variant
returning `l.length` when absent, guarded by a membership test at use
sites exactly as the source guards with `'0' in parts`). -/
def listIdx : List String → String → Nat
  | [], _ => 0
  | a :: as, x => if a == x then 0 else listIdx as x + 1

/-- One flattened property (`pfb_fhir.model.Property` as used by the
simplifier): a dotted key, a scalar value, and the `id`s of its
schema-element descriptors (`leaf_elements`, of which only
`leaf_elements[0]['id']` is ever read). -/
structure Property where
  flattened_key : String
  value : String
  leaf_elements : List String
deriving DecidableEq

/-- The intermediate grouping structure: an insertion-ordered mapping from
root schema-element id to the properties sharing that root. -/
abbrev Groups := List (String × List Property)

/-- `pfb_fhir.model.TransformerContext` as used by the simplifier:
an insertion-ordered mapping from flattened key to property. -/
structure TransformerContext where
  properties : List (String × Property)
deriving DecidableEq

/-- `property_.leaf_elements[0]['id']` on a property known to have a
descriptor (total variant; the `[]` case is trapped by the caller). -/
def rootId (p : Property) : String := p.leaf_elements.headD ""

/-- `defaultdict(list)` append: `d[key].append(p)`.  An existing key keeps
its position and its list grows at the end; a fresh key is appended at the
end of the mapping. -/
def insertGroup : Groups → String → Property → Groups
  | [], key, p => [(key, [p])]
  | g :: gs, key, p =>
    if g.1 == key then (g.1, g.2 ++ [p]) :: gs
    else g :: insertGroup gs key p

/-- The loop body of `ContextSimplifier._group_by_root`: fold the
properties into a `defaultdict(list)` keyed by `leaf_elements[0]['id']`;
a property with no descriptor raises `IndexError`. -/
def groupByRootAux : Groups → List Property → Except String Groups
  | gs, [] => .ok gs
  | gs, p :: ps =>
    match p.leaf_elements with
    | [] => .error "IndexError"
    | id0 :: _ => groupByRootAux (insertGroup gs id0 p) ps

/-- `ContextSimplifier._group_by_root` (iterating `context.properties.values()`). -/
def group_by_root (props : List Property) : Except String Groups :=
  groupByRootAux [] props

/-- The keys scanned by the outer `while` of `_extensions`:
`[p.flattened_key for p in properties if p.flattened_key.startswith(f"extension.{i}")]`. -/
def extScanKeys (ps : List Property) (i : Nat) : List String :=
  (ps.filter (fun p => strStartsWith p.flattened_key ("extension." ++ natToStr i))).map
    (fun p => p.flattened_key)

/-- The keys scanned by the inner `while` of `_extensions`:
`[p.flattened_key for p in properties if f"extension.{i}.extension.{j}" in p.flattened_key]`. -/
def subScanKeys (ps : List Property) (i j : Nat) : List String :=
  (ps.filter (fun p =>
    strContains p.flattened_key
      ("extension." ++ natToStr i ++ ".extension." ++ natToStr j))).map
    (fun p => p.flattened_key)

/-- `f"extension.{i}.url"`. -/
def extUrlKey (i : Nat) : String := "extension." ++ natToStr i ++ ".url"

/-- `f"extension.{i}.extension.{j}.url"`. -/
def subUrlKey (i j : Nat) : String :=
  "extension." ++ natToStr i ++ ".extension." ++ natToStr j ++ ".url"

/-- `f"extension.{i}.extension.{j}.valueCoding.code"`. -/
def subCodeKey (i j : Nat) : String :=
  "extension." ++ natToStr i ++ ".extension." ++ natToStr j ++ ".valueCoding.code"

/-- `f"extension.{i}.extension.{j}.valueString"`. -/
def subStringKey (i j : Nat) : String :=
  "extension." ++ natToStr i ++ ".extension." ++ natToStr j ++ ".valueString"

/-- `next(iter([p for p in ps if p.flattened_key == key]), None)`. -/
def findKey (ps : List Property) (key : String) : Option Property :=
  ps.find? (fun p => p.flattened_key == key)

/-- One iteration of the inner (sub-extension) `while` of `_extensions`:
`.ok none` means the existence scan came up empty (loop exit);
a missing `url` is `StopIteration` from the guarded `next(iter(...))`;
a sub-extension with neither a `valueCoding.code` nor a `valueString`
property leaves `sub_extension_value = None`, and the subsequent
`deepcopy(None).flattened_key = ...` raises `AttributeError`. -/
def subExtStep (ps : List Property) (i : Nat) (extName : String) (j : Nat) :
    Except String (Option Property) :=
  if (subScanKeys ps i j).length = 0 then .ok none
  else
    match findKey ps (subUrlKey i j) with
    | none => .error "StopIteration"
    | some su =>
      let subName := lastSeg su.value '/'
      match
        (match findKey ps (subCodeKey i j) with
         | some v => some v
         | none => findKey ps (subStringKey i j)) with
      | none => .error "AttributeError"
      | some v => .ok (some { v with flattened_key := extName ++ "." ++ subName })

/-- The inner (sub-extension) `while` of `_extensions`, accumulating the
clones into `simplified_extensions`. -/
def subExtLoop : Nat → List Property → Nat → String → Nat → List Property →
    Except String (List Property)
  | 0, _, _, _, _, _ => .error "Fuel"
  | fuel + 1, ps, i, extName, j, acc =>
    match subExtStep ps i extName j with
    | .error e => .error e
    | .ok none => .ok acc
    | .ok (some p) => subExtLoop fuel ps i extName (j + 1) (acc ++ [p])

/-- The outer (extension) `while` of `_extensions`: a missing
`extension.{i}.url` is `StopIteration` from the unguarded `next(iter(...))`. -/
def extLoop : Nat → List Property → Nat → List Property → Except String (List Property)
  | 0, _, _, _ => .error "Fuel"
  | fuel + 1, ps, i, acc =>
    if (extScanKeys ps i).length = 0 then .ok acc
    else
      match findKey ps (extUrlKey i) with
      | none => .error "StopIteration"
      | some u =>
        match subExtLoop (fuel + 1) ps i (lastSeg u.value '/') 0 acc with
        | .error e => .error e
        | .ok acc2 => extLoop fuel ps (i + 1) acc2

/-- Total length of the flattened keys of a property list; an upper bound
on the number of indices either `while` of `_extensions` can scan. -/
def totalKeyLen (ps : List Property) : Nat :=
  ps.foldl (fun a p => a + p.flattened_key.data.length) 0

/-- Fuel budget for the `_extensions` loops on one group. -/
def extFuel (ps : List Property) : Nat := 2 * totalKeyLen ps + 2

/-- The `for k, properties in simplified_properties.items()` loop of
`_extensions`: groups whose key does not end in `"extension"` are skipped;
for the others the extension loops run, `simplified_extensions_key` is
(re)bound to the group key, and the clones accumulate into the shared
`simplified_extensions` list. -/
def extGroupsLoop : Groups → Option String → List Property →
    Except String (Option String × List Property)
  | [], key?, acc => .ok (key?, acc)
  | (k, ps) :: rest, key?, acc =>
    if strEndsWith k "extension" then
      match extLoop (extFuel ps) ps 0 acc with
      | .error e => .error e
      | .ok acc2 => extGroupsLoop rest (some k) acc2
    else extGroupsLoop rest key? acc

/-- `ContextSimplifier._extensions`: after the loop, if some group key
ended in `"extension"`, `del` removes that entry and the re-assignment
appends it at the end holding exactly the accumulated clones. -/
def extensions (gs : Groups) : Except String Groups :=
  match extGroupsLoop gs none [] with
  | .error e => .error e
  | .ok (none, _) => .ok gs
  | .ok (some k, acc) => .ok ((gs.filter (fun g => !(g.1 == k))) ++ [(k, acc)])

/-- The body of the `for flattened_key in flattened_keys` loop of
`_single_item_lists` for one stale snapshot key `fk`: find the first `'0'`
segment; if it exists and is not the leading segment, and no snapshot key
contains `"<property_name>.1"`, rewrite every live property by replacing
the first occurrence of `"<property_name>.0"` with `property_name`. -/
def sILRewrite (snapshot : List String) (props : List Property) (fk : String) :
    List Property :=
  let parts := strSplit fk '.'
  let arrayIndex : Int := if parts.contains "0" then (listIdx parts "0" : Int) else -1
  if arrayIndex > 0 then
    let propertyName := parts.getD (listIdx parts "0" - 1) ""
    if snapshot.any (fun s => strContains s (propertyName ++ ".1")) then props
    else
      props.map (fun p =>
        { p with
          flattened_key :=
            replaceFirstStr p.flattened_key (propertyName ++ ".0") propertyName })
  else props

/-- The `for flattened_key in flattened_keys` loop of `_single_item_lists`:
the snapshot of keys is fixed while the live properties mutate. -/
def sILKeys (snapshot : List String) : List String → List Property → List Property
  | [], props => props
  | fk :: rest, props => sILKeys snapshot rest (sILRewrite snapshot props fk)

/-- One group-level iteration of `_single_item_lists`: snapshot the keys,
then run the rewrite loop over the snapshot. -/
def sILGroupOnce (ps : List Property) : List Property :=
  let snapshot := ps.map (fun p => p.flattened_key)
  sILKeys snapshot snapshot ps

/-- One `for k, properties in simplified_properties.items()` sweep of
`_single_item_lists` (the re-assignment `simplified_properties[k] =
properties` keeps each key in place). -/
def sILPassOnce (gs : Groups) : Groups := gs.map (fun g => (g.1, sILGroupOnce g.2))

/-- `ContextSimplifier._single_item_lists`: the sweep runs exactly three
times (`for i in range(3)`). -/
def single_item_lists (gs : Groups) : Groups :=
  sILPassOnce (sILPassOnce (sILPassOnce gs))

/-- `[p.flattened_key for p in properties if 'coding' in p.flattened_key]`. -/
def codingKeys (ps : List Property) : List String :=
  (ps.filter (fun p => strContains p.flattened_key "coding")).map
    (fun p => p.flattened_key)

/-- `next(iter([p for p in ps if p.flattened_key == key]), None)` applied
to an optional key (`None` stays `None`): how `_codings` resolves the
`system`/`code`/`display` key variables to properties. -/
def optFindKey (ps : List Property) (o : Option String) : Option Property :=
  match o with
  | some key => findKey ps key
  | none => none

/-- The `if system and code` branch of `_codings`: when both are present,
the clone of the code property under `<base_key>.<system_tag>` together
with the newly assigned `system_value`; otherwise no clone and the
previous `system_value`. -/
def fromCodePair (sysVal : Option String) (sysP? codeP? : Option Property) :
    List Property × Option String :=
  match sysP?, codeP? with
  | some s, some c =>
    let baseKey := replaceAllStr s.flattened_key ".coding.system" ""
    let sysTag := lastSeg s.value '/'
    ([{ c with flattened_key := baseKey ++ "." ++ sysTag }], some sysTag)
  | _, _ => ([], sysVal)

/-- The body of the `for k, properties in simplified_properties.items()`
loop of `_codings` for one group, given the current value of the
function-local `system_value` variable.  Returns the rebuilt group, the
entry to append to `original_coded_values` (at most one), and the new
`system_value`.  Python only assigns `system_value` inside the
`if system and code` branch: reading it in the `if system and display`
branch before any assignment raises `NameError`, and after a
`system and code` branch of an earlier group it silently reuses the stale
value. -/
def codGroupStep (sysVal : Option String) (k : String) (ps : List Property) :
    Except String ((String × List Property) × List (String × List String) × Option String) :=
  let cks := codingKeys ps
  if cks.length > 0 then
    let sysK? := cks.find? (fun s => strEndsWith s ".coding.system")
    let codeK? := cks.find? (fun s => strEndsWith s ".coding.code")
    let dispK? := cks.find? (fun s => strEndsWith s ".coding.display")
    let remK :=
      (match sysK? with | some s => [s] | none => []) ++
      (match codeK? with | some s => [s] | none => []) ++
      (match dispK? with | some s => [s] | none => [])
    let remAdd := if remK.isEmpty then ([] : List (String × List String)) else [(k, remK)]
    let sysP? := optFindKey ps sysK?
    let codeP? := optFindKey ps codeK?
    let dispP? := optFindKey ps dispK?
    let fromCode := fromCodePair sysVal sysP? codeP?
    match sysP?, dispP? with
    | some s, some d =>
      match fromCode.2 with
      | none => .error "NameError"
      | some sv =>
        let baseKey := replaceAllStr s.flattened_key ".coding.system" ""
        .ok ((k, ps ++ fromCode.1 ++
          [{ d with flattened_key := baseKey ++ "." ++ sv ++ ".display" }]),
          remAdd, fromCode.2)
    | _, _ => .ok ((k, ps ++ fromCode.1), remAdd, fromCode.2)
  else .ok ((k, ps), [], sysVal)

/-- The `for k, properties in simplified_properties.items()` loop of
`_codings`: fold `codGroupStep` over the groups, threading the rebuilt
groups, the `original_coded_values` removal map, and `system_value`. -/
def codingsLoop : Groups → Groups → List (String × List String) → Option String →
    Except String (Groups × List (String × List String))
  | [], out, rem, _ => .ok (out, rem)
  | (k, ps) :: rest, out, rem, sysVal =>
    match codGroupStep sysVal k ps with
    | .error e => .error e
    | .ok (g2, remAdd, sv2) => codingsLoop rest (out ++ [g2]) (rem ++ remAdd) sv2

/-- `ContextSimplifier._codings`: run the group loop, then for every group
recorded in `original_coded_values`, drop the properties whose key is one
of the recorded original coding keys (the re-assignment keeps each group
key in place). -/
def codings (gs : Groups) : Except String Groups :=
  match codingsLoop gs [] [] none with
  | .error e => .error e
  | .ok (out, rem) =>
    .ok (out.map (fun g =>
      match rem.find? (fun r => r.1 == g.1) with
      | some r => (g.1, g.2.filter (fun p => !(r.2.contains p.flattened_key)))
      | none => g))

/-- Python `dict` assignment `m[key] = v`: an existing key keeps its
position and gets the new value, a fresh key is appended at the end. -/
def upsert : List (String × Property) → String → Property → List (String × Property)
  | [], key, v => [(key, v)]
  | kv :: m, key, v =>
    if kv.1 == key then (key, v) :: m
    else kv :: upsert m key v

/-- The inner `for p in properties` of the write-back loop of `simplify`:
`context.properties[p.flattened_key] = p`. -/
def writeAll : List (String × Property) → List Property → List (String × Property)
  | m, [] => m
  | m, p :: ps => writeAll (upsert m p.flattened_key p) ps

/-- The write-back loop of `simplify` over the grouped structure. -/
def flattenGroupsAux : List (String × Property) → Groups → List (String × Property)
  | m, [] => m
  | m, (_, ps) :: rest => flattenGroupsAux (writeAll m ps) rest

/-- `context.properties = {}` followed by the nested write-back loops. -/
def flattenGroups (gs : Groups) : List (String × Property) :=
  flattenGroupsAux [] gs

/-- `ContextSimplifier.simplify`: assert the mapping non-empty, group by
root, simplify extensions, collapse single-item lists, simplify codings,
and write the grouped result back into the context. -/
def simplify (ctx : TransformerContext) : Except String TransformerContext :=
  if ctx.properties.isEmpty then .error "AssertionError"
  else
    match group_by_root (ctx.properties.map (fun kv => kv.2)) with
    | .error e => .error e
    | .ok g1 =>
      match extensions g1 with
      | .error e => .error e
      | .ok g2 =>
        match codings (single_item_lists g2) with
        | .error e => .error e
        | .ok g4 => .ok ⟨flattenGroups g4⟩

/-! ## Observation functions used to state properties -/

/-- Look a root id up in the grouping structure (first match, as for a
Python `dict` whose keys are unique). -/
def lookupG (gs : Groups) (r : String) : Option (List Property) :=
  (gs.find? (fun g => g.1 == r)).map (fun g => g.2)

/-- Look a flattened key up in a property mapping (first match). -/
def lookupP (m : List (String × Property)) (key : String) : Option Property :=
  (m.find? (fun kv => kv.1 == key)).map (fun kv => kv.2)

/-- All properties of a grouping structure, in group order. -/
def allProps : Groups → List Property
  | [] => []
  | g :: gs => g.2 ++ allProps gs

/-- The last property of `ps` (in processing order) whose flattened key is
`key`, if any: the value a sequence of `dict` writes leaves behind. -/
def lastWrite (ps : List Property) (key : String) : Option Property :=
  ps.foldl (fun acc p => if p.flattened_key == key then some p else acc) none

/-- The keys of a property mapping, in order. -/
def keysOf (m : List (String × Property)) : List String := m.map (fun kv => kv.1)

/-- Extend an optional group with a batch of properties: unchanged when the
batch is empty, otherwise the existing entries (defaulting to none) followed
by the batch. -/
def combineOpt (o : Option (List Property)) (l : List Property) :
    Option (List Property) :=
  if l.isEmpty then o else some (o.getD [] ++ l)

/-! ## Concrete inputs used by the claim theorems -/

/-- Shorthand for a property with a single schema-descriptor id. -/
def mkP (k v r : String) : Property := ⟨k, v, [r]⟩

/-- The extension-flattening example context: a race extension with a
single `text` sub-extension valued `"Asian"`, all three properties rooted
at the schema element `Patient.extension`. -/
def raceCtx : TransformerContext :=
  ⟨[("extension.0.url", mkP "extension.0.url" "http://a/race" "Patient.extension"),
    ("extension.0.extension.0.url",
      mkP "extension.0.extension.0.url" "http://a/text" "Patient.extension"),
    ("extension.0.extension.0.valueString",
      mkP "extension.0.extension.0.valueString" "Asian" "Patient.extension")]⟩

/-- The coding-triple example context: `obs.coding.system/code/display`
rooted at the schema element `Observation.code`. -/
def obsCtx : TransformerContext :=
  ⟨[("obs.coding.system", mkP "obs.coding.system" "http://x/sys1" "Observation.code"),
    ("obs.coding.code", mkP "obs.coding.code" "123" "Observation.code"),
    ("obs.coding.display", mkP "obs.coding.display" "Foo" "Observation.code")]⟩

/-- An extension group whose first sub-extension has a `url` but neither a
`valueCoding.code` nor a `valueString` property. -/
def noValueExtGroup : Groups :=
  [("Patient.extension",
    [mkP "extension.0.url" "http://a/race" "Patient.extension",
     mkP "extension.0.extension.0.url" "http://a/text" "Patient.extension"])]

/-- A group holding a `coding.system` and a `coding.display` key but no
`coding.code` key. -/
def displayNoCodeGroup : Groups :=
  [("Observation.code",
    [mkP "obs.coding.system" "http://x/sys1" "Observation.code",
     mkP "obs.coding.display" "Foo" "Observation.code"])]

/-! ## Helper lemmas -/

theorem lookupG_nil (r : String) : lookupG [] r = none := rfl

theorem lookupG_cons (g : String × List Property) (gs : Groups) (r : String) :
    lookupG (g :: gs) r = if g.1 = r then some g.2 else lookupG gs r := by
  cases hb : (g.1 == r) with
  | true =>
    rw [if_pos (beq_iff_eq.mp hb)]
    simp [lookupG, List.find?_cons, hb]
  | false =>
    rw [if_neg (by simpa using (beq_eq_false_iff_ne (a := g.1) (b := r)).mp hb)]
    simp [lookupG, List.find?_cons, hb]

theorem insertGroup_cons_hit (g : String × List Property) (gs : Groups) (key : String)
    (p : Property) (hg : g.1 = key) :
    insertGroup (g :: gs) key p = (g.1, g.2 ++ [p]) :: gs := by
  simp [insertGroup, hg]

theorem insertGroup_cons_miss (g : String × List Property) (gs : Groups) (key : String)
    (p : Property) (hg : g.1 ≠ key) :
    insertGroup (g :: gs) key p = g :: insertGroup gs key p := by
  simp [insertGroup, hg]

theorem lookupG_insertGroup (key : String) (p : Property) (r : String) :
    ∀ gs : Groups, lookupG (insertGroup gs key p) r =
      if r = key then some ((lookupG gs key).getD [] ++ [p]) else lookupG gs r := by
  intro gs
  induction gs with
  | nil =>
    by_cases h : r = key
    · subst h
      show lookupG [(r, [p])] r = _
      rw [lookupG_cons, if_pos rfl, if_pos rfl, lookupG_nil]
      rfl
    · show lookupG [(key, [p])] r = _
      rw [lookupG_cons, if_neg (fun e => h e.symm), if_neg h]
  | cons g gs ih =>
    by_cases hg : g.1 = key
    · rw [insertGroup_cons_hit g gs key p hg, lookupG_cons]
      by_cases h : r = key
      · subst h
        rw [if_pos hg, if_pos rfl, lookupG_cons, if_pos hg]
        rfl
      · have hgr : g.1 ≠ r := fun e => h (e.symm.trans hg)
        rw [if_neg hgr, if_neg h, lookupG_cons, if_neg hgr]
    · rw [insertGroup_cons_miss g gs key p hg, lookupG_cons, ih]
      by_cases h : r = key
      · subst h
        rw [if_neg hg, if_pos rfl, if_pos rfl, lookupG_cons, if_neg hg]
      · rw [if_neg h, if_neg h, lookupG_cons]

theorem combineOpt_push (o : Option (List Property)) (p : Property) (l : List Property) :
    combineOpt (some (o.getD [] ++ [p])) l = combineOpt o (p :: l) := by
  cases l with
  | nil => simp [combineOpt]
  | cons a l => simp [combineOpt]

theorem groupByRootAux_ok : ∀ (ps : List Property) (gs : Groups),
    (∀ p ∈ ps, p.leaf_elements ≠ []) →
    ∃ gs', groupByRootAux gs ps = .ok gs' ∧
      ∀ r, lookupG gs' r = combineOpt (lookupG gs r) (ps.filter (fun p => rootId p == r)) := by
  intro ps
  induction ps with
  | nil =>
    intro gs _
    exact ⟨gs, rfl, fun r => by simp [combineOpt]⟩
  | cons p ps ih =>
    intro gs h
    have hp := h p (List.mem_cons_self p ps)
    cases hl : p.leaf_elements with
    | nil => exact absurd hl hp
    | cons id0 tl =>
      have step : groupByRootAux gs (p :: ps) = groupByRootAux (insertGroup gs id0 p) ps := by
        simp [groupByRootAux, hl]
      obtain ⟨gs', hok, hch⟩ :=
        ih (insertGroup gs id0 p) (fun q hq => h q (List.mem_cons_of_mem _ hq))
      refine ⟨gs', step ▸ hok, fun r => ?_⟩
      rw [hch r, lookupG_insertGroup]
      have hroot : rootId p = id0 := by simp [rootId, hl]
      by_cases hr : r = id0
      · subst hr
        rw [if_pos rfl]
        have hfil : (p :: ps).filter (fun q => rootId q == r) =
            p :: ps.filter (fun q => rootId q == r) := by
          simp [List.filter_cons, hroot]
        rw [hfil, combineOpt_push]
      · rw [if_neg hr]
        have hfil : (p :: ps).filter (fun q => rootId q == r) =
            ps.filter (fun q => rootId q == r) := by
          simp [List.filter_cons, hroot, beq_eq_false_iff_ne, Ne.symm]
          intro e
          exact absurd e.symm hr
        rw [hfil]

theorem groupByRootAux_err : ∀ (ps : List Property) (gs : Groups),
    (∃ p ∈ ps, p.leaf_elements = []) → groupByRootAux gs ps = .error "IndexError" := by
  intro ps
  induction ps with
  | nil =>
    rintro gs ⟨p, hp, _⟩
    cases hp
  | cons p ps ih =>
    rintro gs ⟨q, hq, hqe⟩
    rcases List.mem_cons.mp hq with h | h
    · subst h
      simp [groupByRootAux, hqe]
    · cases hl : p.leaf_elements with
      | nil => simp [groupByRootAux, hl]
      | cons id0 tl =>
        simp [groupByRootAux, hl]
        exact ih _ ⟨q, h, hqe⟩

theorem lookupP_nil (r : String) : lookupP [] r = none := rfl

theorem lookupP_cons (kv : String × Property) (m : List (String × Property)) (r : String) :
    lookupP (kv :: m) r = if kv.1 = r then some kv.2 else lookupP m r := by
  cases hb : (kv.1 == r) with
  | true =>
    rw [if_pos (beq_iff_eq.mp hb)]
    simp [lookupP, List.find?_cons, hb]
  | false =>
    rw [if_neg (by simpa using (beq_eq_false_iff_ne (a := kv.1) (b := r)).mp hb)]
    simp [lookupP, List.find?_cons, hb]

theorem upsert_cons_hit (kv : String × Property) (m : List (String × Property))
    (key : String) (v : Property) (hk : kv.1 = key) :
    upsert (kv :: m) key v = (key, v) :: m := by
  simp [upsert, hk]

theorem upsert_cons_miss (kv : String × Property) (m : List (String × Property))
    (key : String) (v : Property) (hk : kv.1 ≠ key) :
    upsert (kv :: m) key v = kv :: upsert m key v := by
  simp [upsert, hk]

theorem lookupP_upsert (key : String) (v : Property) (r : String) :
    ∀ m : List (String × Property),
      lookupP (upsert m key v) r = if r = key then some v else lookupP m r := by
  intro m
  induction m with
  | nil =>
    show lookupP [(key, v)] r = _
    rw [lookupP_cons]
    by_cases h : r = key
    · subst h; simp
    · rw [if_neg (fun e => h e.symm), if_neg h]
  | cons kv m ih =>
    by_cases hk : kv.1 = key
    · rw [upsert_cons_hit kv m key v hk, lookupP_cons, lookupP_cons]
      by_cases h : r = key
      · subst h; simp
      · rw [if_neg (fun e => h e.symm), if_neg h,
          if_neg (fun e => h (hk.symm.trans e).symm)]
    · rw [upsert_cons_miss kv m key v hk, lookupP_cons, ih, lookupP_cons]
      by_cases h : r = key
      · subst h
        rw [if_neg hk]
        simp
      · rw [if_neg h, if_neg h]

theorem lookupP_writeAll (r : String) : ∀ (ps : List Property) (m : List (String × Property)),
    lookupP (writeAll m ps) r =
      ps.foldl (fun acc p => if p.flattened_key == r then some p else acc) (lookupP m r) := by
  intro ps
  induction ps with
  | nil => intro m; rfl
  | cons p ps ih =>
    intro m
    show lookupP (writeAll (upsert m p.flattened_key p) ps) r = _
    rw [ih, lookupP_upsert]
    have : (if r = p.flattened_key then some p else lookupP m r) =
        (if p.flattened_key == r then some p else lookupP m r) := by
      by_cases h : r = p.flattened_key
      · subst h; rw [if_pos rfl, if_pos (beq_iff_eq.mpr rfl)]
      · rw [if_neg h, if_neg (by simp [beq_eq_false_iff_ne]; exact fun e => h e.symm)]
    rw [this]
    rfl

theorem lookupP_flattenGroupsAux (r : String) :
    ∀ (gs : Groups) (m : List (String × Property)),
      lookupP (flattenGroupsAux m gs) r =
        (allProps gs).foldl (fun acc p => if p.flattened_key == r then some p else acc)
          (lookupP m r) := by
  intro gs
  induction gs with
  | nil => intro m; rfl
  | cons g gs ih =>
    intro m
    show lookupP (flattenGroupsAux (writeAll m g.2) gs) r = _
    rw [ih, lookupP_writeAll]
    show _ = (g.2 ++ allProps gs).foldl _ _
    rw [List.foldl_append]


theorem keysOf_cons (kv : String × Property) (m : List (String × Property)) :
    keysOf (kv :: m) = kv.1 :: keysOf m := rfl

theorem keys_upsert_mem (key : String) (v : Property) (x : String) :
    ∀ m : List (String × Property),
      x ∈ keysOf (upsert m key v) → x ∈ keysOf m ∨ x = key := by
  intro m
  induction m with
  | nil =>
    intro h
    exact Or.inr (List.mem_singleton.mp h)
  | cons kv m ih =>
    by_cases hk : kv.1 = key
    · rw [upsert_cons_hit kv m key v hk, keysOf_cons]
      intro h
      rcases List.mem_cons.mp h with h | h
      · exact Or.inr h
      · exact Or.inl (by rw [keysOf_cons]; exact List.mem_cons_of_mem _ h)
    · rw [upsert_cons_miss kv m key v hk, keysOf_cons]
      intro h
      rcases List.mem_cons.mp h with h | h
      · exact Or.inl (by rw [keysOf_cons, h]; exact List.mem_cons_self _ _)
      · rcases ih h with h2 | h2
        · exact Or.inl (by rw [keysOf_cons]; exact List.mem_cons_of_mem _ h2)
        · exact Or.inr h2

theorem keys_upsert_nodup (key : String) (v : Property) :
    ∀ m : List (String × Property),
      (keysOf m).Nodup → (keysOf (upsert m key v)).Nodup := by
  intro m
  induction m with
  | nil => intro _; exact List.nodup_singleton key
  | cons kv m ih =>
    intro h
    rw [keysOf_cons, List.nodup_cons] at h
    by_cases hk : kv.1 = key
    · rw [upsert_cons_hit kv m key v hk, keysOf_cons, List.nodup_cons]
      exact ⟨fun hm => h.1 (by rw [hk]; exact hm), h.2⟩
    · rw [upsert_cons_miss kv m key v hk, keysOf_cons, List.nodup_cons]
      refine ⟨fun hm => ?_, ih h.2⟩
      rcases keys_upsert_mem key v kv.1 m hm with h2 | h2
      · exact h.1 h2
      · exact hk h2

theorem keys_writeAll_nodup : ∀ (ps : List Property) (m : List (String × Property)),
    (keysOf m).Nodup → (keysOf (writeAll m ps)).Nodup := by
  intro ps
  induction ps with
  | nil => intro m h; exact h
  | cons p ps ih =>
    intro m h
    exact ih (upsert m p.flattened_key p) (keys_upsert_nodup p.flattened_key p m h)

theorem keys_flattenGroupsAux_nodup : ∀ (gs : Groups) (m : List (String × Property)),
    (keysOf m).Nodup → (keysOf (flattenGroupsAux m gs)).Nodup := by
  intro gs
  induction gs with
  | nil => intro m h; exact h
  | cons g gs ih =>
    intro m h
    exact ih (writeAll m g.2) (keys_writeAll_nodup g.2 m h)

theorem allProps_append : ∀ (a b : Groups), allProps (a ++ b) = allProps a ++ allProps b := by
  intro a b
  induction a with
  | nil => rfl
  | cons g a ih => simp [allProps, ih]

theorem allProps_filter_sub (f : String × List Property → Bool) (q : Property) :
    ∀ gs : Groups, q ∈ allProps (gs.filter f) → q ∈ allProps gs := by
  intro gs
  induction gs with
  | nil => intro h; exact h
  | cons g gs ih =>
    intro h
    rw [List.filter_cons] at h
    by_cases hf : f g
    · rw [if_pos hf] at h
      rcases List.mem_append.mp h with h | h
      · exact List.mem_append.mpr (Or.inl h)
      · exact List.mem_append.mpr (Or.inr (ih h))
    · rw [if_neg hf] at h
      exact List.mem_append.mpr (Or.inr (ih h))

theorem mem_allProps_insertGroup (key : String) (p q : Property) :
    ∀ gs : Groups, q ∈ allProps (insertGroup gs key p) → q ∈ allProps gs ∨ q = p := by
  intro gs
  induction gs with
  | nil =>
    intro h
    right
    simpa [allProps] using h
  | cons g gs ih =>
    by_cases hg : g.1 = key
    · rw [show insertGroup (g :: gs) key p = (g.1, g.2 ++ [p]) :: gs by simp [insertGroup, hg]]
      intro h
      rcases List.mem_append.mp h with h | h
      · rcases List.mem_append.mp h with h | h
        · exact Or.inl (List.mem_append.mpr (Or.inl h))
        · exact Or.inr (List.mem_singleton.mp h)
      · exact Or.inl (List.mem_append.mpr (Or.inr h))
    · rw [show insertGroup (g :: gs) key p = g :: insertGroup gs key p by simp [insertGroup, hg]]
      intro h
      rcases List.mem_append.mp h with h | h
      · exact Or.inl (List.mem_append.mpr (Or.inl h))
      · rcases ih h with h2 | h2
        · exact Or.inl (List.mem_append.mpr (Or.inr h2))
        · exact Or.inr h2

theorem groupByRootAux_mem (q : Property) :
    ∀ (ps : List Property) (gs gs' : Groups), groupByRootAux gs ps = .ok gs' →
      q ∈ allProps gs' → q ∈ allProps gs ∨ q ∈ ps := by
  intro ps
  induction ps with
  | nil =>
    intro gs gs' h hq
    cases h
    exact Or.inl hq
  | cons p ps ih =>
    intro gs gs' h hq
    cases hl : p.leaf_elements with
    | nil => rw [groupByRootAux, hl] at h; cases h
    | cons id0 tl =>
      rw [groupByRootAux, hl] at h
      rcases ih (insertGroup gs id0 p) gs' h hq with h2 | h2
      · rcases mem_allProps_insertGroup id0 p q gs h2 with h3 | h3
        · exact Or.inl h3
        · exact Or.inr (h3 ▸ List.mem_cons_self p ps)
      · exact Or.inr (List.mem_cons_of_mem p h2)

theorem subExtStep_mem (ps : List Property) (i : Nat) (en : String) (j : Nat)
    (cl : Property) (h : subExtStep ps i en j = .ok (some cl)) :
    ∃ p ∈ ps, cl.value = p.value := by
  rw [subExtStep] at h
  split at h
  · cases h
  · split at h
    · cases h
    · rename_i su hsu
      split at h
      · cases h
      · rename_i v hv
        cases h
        refine ⟨v, ?_, rfl⟩
        split at hv
        · rename_i hfind
          exact List.mem_of_find?_eq_some (hv ▸ hfind)
        · exact List.mem_of_find?_eq_some hv

theorem subExtLoop_mem (ps : List Property) (i : Nat) (en : String) (q : Property) :
    ∀ (fuel j : Nat) (acc acc' : List Property),
      subExtLoop fuel ps i en j acc = .ok acc' → q ∈ acc' →
        q ∈ acc ∨ ∃ p ∈ ps, q.value = p.value := by
  intro fuel
  induction fuel with
  | zero => intro j acc acc' h; cases h
  | succ fuel ih =>
    intro j acc acc' h hq
    rw [subExtLoop] at h
    split at h
    · cases h
    · cases h
      exact Or.inl hq
    · rename_i cl hcl
      rcases ih (j + 1) (acc ++ [cl]) acc' h hq with h2 | h2
      · rcases List.mem_append.mp h2 with h3 | h3
        · exact Or.inl h3
        · obtain ⟨p, hp, hv⟩ := subExtStep_mem ps i en j cl hcl
          exact Or.inr ⟨p, hp, (List.mem_singleton.mp h3) ▸ hv⟩
      · exact Or.inr h2

theorem extLoop_mem (ps : List Property) (q : Property) :
    ∀ (fuel i : Nat) (acc acc' : List Property),
      extLoop fuel ps i acc = .ok acc' → q ∈ acc' →
        q ∈ acc ∨ ∃ p ∈ ps, q.value = p.value := by
  intro fuel
  induction fuel with
  | zero => intro i acc acc' h; cases h
  | succ fuel ih =>
    intro i acc acc' h hq
    rw [extLoop] at h
    split at h
    · cases h
      exact Or.inl hq
    · split at h
      · cases h
      · rename_i u hu
        split at h
        · cases h
        · rename_i acc2 hacc2
          rcases ih (i + 1) acc2 acc' h hq with h2 | h2
          · exact subExtLoop_mem ps i (lastSeg u.value '/') q (fuel + 1) 0 acc acc2 hacc2 h2
          · exact Or.inr h2

theorem extGroupsLoop_mem (q : Property) :
    ∀ (gs : Groups) (key? : Option String) (acc : List Property)
      (res : Option String × List Property),
      extGroupsLoop gs key? acc = .ok res → q ∈ res.2 →
        q ∈ acc ∨ ∃ p ∈ allProps gs, q.value = p.value := by
  intro gs
  induction gs with
  | nil =>
    intro key? acc res h hq
    cases h
    exact Or.inl hq
  | cons g gs ih =>
    intro key? acc res h hq
    cases g with
    | mk k ps =>
      rw [extGroupsLoop] at h
      split at h
      · split at h
        · cases h
        · rename_i acc2 hacc2
          rcases ih (some k) acc2 res h hq with h2 | h2
          · rcases extLoop_mem ps q (extFuel ps) 0 acc acc2 hacc2 h2 with h3 | h3
            · exact Or.inl h3
            · obtain ⟨p, hp, hv⟩ := h3
              exact Or.inr ⟨p, List.mem_append.mpr (Or.inl hp), hv⟩
          · obtain ⟨p, hp, hv⟩ := h2
            exact Or.inr ⟨p, List.mem_append.mpr (Or.inr hp), hv⟩
      · rcases ih key? acc res h hq with h2 | h2
        · exact Or.inl h2
        · obtain ⟨p, hp, hv⟩ := h2
          exact Or.inr ⟨p, List.mem_append.mpr (Or.inr hp), hv⟩

theorem extensions_mem (gs gs' : Groups) (q : Property)
    (h : extensions gs = .ok gs') (hq : q ∈ allProps gs') :
    ∃ p ∈ allProps gs, q.value = p.value := by
  rw [extensions] at h
  split at h
  · cases h
  · cases h
    exact ⟨q, hq, rfl⟩
  · rename_i k acc heq
    cases h
    rw [allProps_append] at hq
    rcases List.mem_append.mp hq with h2 | h2
    · exact ⟨q, allProps_filter_sub _ q gs h2, rfl⟩
    · have h3 : q ∈ acc := by simpa [allProps] using h2
      rcases extGroupsLoop_mem q gs none [] (some k, acc) heq h3 with h4 | h4
      · cases h4
      · exact h4

theorem sILRewrite_mem (snapshot : List String) (props : List Property) (fk : String)
    (q : Property) (hq : q ∈ sILRewrite snapshot props fk) :
    ∃ p ∈ props, q.value = p.value := by
  simp only [sILRewrite] at hq
  repeat' split at hq
  all_goals first
    | exact ⟨q, hq, rfl⟩
    | (obtain ⟨p, hp, he⟩ := List.mem_map.mp hq
       exact ⟨p, hp, by rw [← he]⟩)

theorem sILKeys_mem (snapshot : List String) (q : Property) :
    ∀ (l : List String) (props : List Property),
      q ∈ sILKeys snapshot l props → ∃ p ∈ props, q.value = p.value := by
  intro l
  induction l with
  | nil => intro props h; exact ⟨q, h, rfl⟩
  | cons fk l ih =>
    intro props h
    obtain ⟨p, hp, hv⟩ := ih (sILRewrite snapshot props fk) h
    obtain ⟨p2, hp2, hv2⟩ := sILRewrite_mem snapshot props fk p hp
    exact ⟨p2, hp2, hv.trans hv2⟩

theorem sILPassOnce_mem (q : Property) :
    ∀ gs : Groups, q ∈ allProps (sILPassOnce gs) →
      ∃ p ∈ allProps gs, q.value = p.value := by
  intro gs
  induction gs with
  | nil => intro h; cases h
  | cons g gs ih =>
    intro h
    simp only [sILPassOnce, List.map_cons, allProps] at h
    rcases List.mem_append.mp h with h | h
    · simp only [sILGroupOnce] at h
      obtain ⟨p, hp, hv⟩ := sILKeys_mem (g.2.map (fun p => p.flattened_key)) q
        (g.2.map (fun p => p.flattened_key)) g.2 h
      exact ⟨p, List.mem_append.mpr (Or.inl hp), hv⟩
    · obtain ⟨p, hp, hv⟩ := ih (by simpa [sILPassOnce, allProps] using h)
      exact ⟨p, List.mem_append.mpr (Or.inr hp), hv⟩

theorem single_item_lists_mem (gs : Groups) (q : Property)
    (hq : q ∈ allProps (single_item_lists gs)) :
    ∃ p ∈ allProps gs, q.value = p.value := by
  obtain ⟨p1, hp1, hv1⟩ := sILPassOnce_mem q (sILPassOnce (sILPassOnce gs)) hq
  obtain ⟨p2, hp2, hv2⟩ := sILPassOnce_mem p1 (sILPassOnce gs) hp1
  obtain ⟨p3, hp3, hv3⟩ := sILPassOnce_mem p2 gs hp2
  exact ⟨p3, hp3, (hv1.trans hv2).trans hv3⟩

theorem optFindKey_mem (ps : List Property) (o : Option String) (p : Property)
    (h : optFindKey ps o = some p) : p ∈ ps := by
  cases o with
  | none => cases h
  | some key => exact List.mem_of_find?_eq_some h

theorem fromCodePair_mem (sysVal : Option String) (sysP? codeP? : Option Property)
    (q : Property) (hq : q ∈ (fromCodePair sysVal sysP? codeP?).1) :
    ∃ c, codeP? = some c ∧ q.value = c.value := by
  cases sysP? with
  | none => cases hq
  | some s =>
    cases codeP? with
    | none => cases hq
    | some c =>
      refine ⟨c, rfl, ?_⟩
      rcases List.mem_singleton.mp hq with h
      rw [h]

theorem codGroupStep_mem (sysVal : Option String) (k : String) (ps : List Property)
    (g2 : String × List Property) (remAdd : List (String × List String))
    (sv2 : Option String) (h : codGroupStep sysVal k ps = .ok (g2, remAdd, sv2)) :
    ∀ q ∈ g2.2, ∃ p ∈ ps, q.value = p.value := by
  simp only [codGroupStep] at h
  repeat' split at h
  all_goals cases h
  all_goals intro q hq
  all_goals
    first
      | exact ⟨q, hq, rfl⟩
      | (rcases List.mem_append.mp hq with h2 | h2
         · first
             | exact ⟨q, h2, rfl⟩
             | (rcases List.mem_append.mp h2 with h3 | h3
                · exact ⟨q, h3, rfl⟩
                · obtain ⟨c, hc, hv⟩ := fromCodePair_mem sysVal _ _ q h3
                  exact ⟨c, optFindKey_mem ps _ c hc, hv⟩)
         · first
             | (obtain ⟨c, hc, hv⟩ := fromCodePair_mem sysVal _ _ q h2
                exact ⟨c, optFindKey_mem ps _ c hc, hv⟩)
             | (rcases List.mem_singleton.mp h2 with h3
                exact ⟨_, optFindKey_mem ps _ _ (by assumption), by rw [h3]⟩))

theorem codingsLoop_mem (q : Property) :
    ∀ (gs out : Groups) (rem : List (String × List String)) (sysVal : Option String)
      (res : Groups × List (String × List String)),
      codingsLoop gs out rem sysVal = .ok res → q ∈ allProps res.1 →
        q ∈ allProps out ∨ ∃ p ∈ allProps gs, q.value = p.value := by
  intro gs
  induction gs with
  | nil =>
    intro out rem sysVal res h hq
    cases h
    exact Or.inl hq
  | cons g gs ih =>
    intro out rem sysVal res h hq
    cases g with
    | mk k ps =>
      rw [codingsLoop] at h
      split at h
      · cases h
      · rename_i g2 remAdd sv2 hstep
        rcases ih (out ++ [g2]) (rem ++ remAdd) sv2 res h hq with h2 | h2
        · rw [allProps_append] at h2
          rcases List.mem_append.mp h2 with h3 | h3
          · exact Or.inl h3
          · have h4 : q ∈ g2.2 := by simpa [allProps] using h3
            obtain ⟨p, hp, hv⟩ := codGroupStep_mem sysVal k ps g2 remAdd sv2 hstep q h4
            exact Or.inr ⟨p, List.mem_append.mpr (Or.inl hp), hv⟩
        · obtain ⟨p, hp, hv⟩ := h2
          exact Or.inr ⟨p, List.mem_append.mpr (Or.inr hp), hv⟩

theorem codings_mem (gs gs2 : Groups) (q : Property)
    (h : codings gs = .ok gs2) (hq : q ∈ allProps gs2) :
    ∃ p ∈ allProps gs, q.value = p.value := by
  rw [codings] at h
  split at h
  · cases h
  · rename_i out rem heq
    cases h
    have h2 : q ∈ allProps out := by
      clear heq
      induction out with
      | nil => cases hq
      | cons g out ih =>
        simp only [List.map_cons, allProps] at hq ⊢
        rcases List.mem_append.mp hq with h3 | h3
        · refine List.mem_append.mpr (Or.inl ?_)
          split at h3
          · exact List.mem_of_mem_filter h3
          · exact h3
        · exact List.mem_append.mpr (Or.inr (ih h3))
    rcases codingsLoop_mem q gs [] [] none (out, rem) heq h2 with h3 | h3
    · cases h3
    · exact h3

theorem mem_upsert (kv : String × Property) (key : String) (v : Property) :
    ∀ m : List (String × Property), kv ∈ upsert m key v → kv ∈ m ∨ kv = (key, v) := by
  intro m
  induction m with
  | nil =>
    intro h
    exact Or.inr (List.mem_singleton.mp h)
  | cons kv2 m ih =>
    by_cases hk : kv2.1 = key
    · rw [upsert_cons_hit kv2 m key v hk]
      intro h
      rcases List.mem_cons.mp h with h2 | h2
      · exact Or.inr h2
      · exact Or.inl (List.mem_cons_of_mem kv2 h2)
    · rw [upsert_cons_miss kv2 m key v hk]
      intro h
      rcases List.mem_cons.mp h with h2 | h2
      · exact Or.inl (h2 ▸ List.mem_cons_self kv2 m)
      · rcases ih h2 with h3 | h3
        · exact Or.inl (List.mem_cons_of_mem kv2 h3)
        · exact Or.inr h3

theorem mem_writeAll (kv : String × Property) :
    ∀ (ps : List Property) (m : List (String × Property)),
      kv ∈ writeAll m ps → kv ∈ m ∨ kv.2 ∈ ps := by
  intro ps
  induction ps with
  | nil => intro m h; exact Or.inl h
  | cons p ps ih =>
    intro m h
    rcases ih (upsert m p.flattened_key p) h with h2 | h2
    · rcases mem_upsert kv p.flattened_key p m h2 with h3 | h3
      · exact Or.inl h3
      · exact Or.inr (by rw [h3]; exact List.mem_cons_self p ps)
    · exact Or.inr (List.mem_cons_of_mem p h2)

theorem mem_flattenGroupsAux (kv : String × Property) :
    ∀ (gs : Groups) (m : List (String × Property)),
      kv ∈ flattenGroupsAux m gs → kv ∈ m ∨ kv.2 ∈ allProps gs := by
  intro gs
  induction gs with
  | nil => intro m h; exact Or.inl h
  | cons g gs ih =>
    intro m h
    rcases ih (writeAll m g.2) h with h2 | h2
    · rcases mem_writeAll kv g.2 m h2 with h3 | h3
      · exact Or.inl h3
      · exact Or.inr (List.mem_append.mpr (Or.inl h3))
    · exact Or.inr (List.mem_append.mpr (Or.inr h2))

/-! ## Claim theorems -/

/-- C3: on a context whose single group is rooted at an element whose id
ends in `extension` and holds exactly `extension.0.url` (value ending
`/race`), `extension.0.extension.0.url` (value ending `/text`) and
`extension.0.extension.0.valueString = "Asian"`, `simplify` returns the
single property `race.text = "Asian"`; no key starting `extension.`
remains, the original entries being discarded rather than merged. -/
theorem extension_race_text_example :
    simplify raceCtx =
      .ok ⟨[("race.text", ⟨"race.text", "Asian", ["Patient.extension"]⟩)]⟩ ∧
    (((simplify raceCtx).toOption.getD ⟨[]⟩).properties.all
      (fun kv => !(strStartsWith kv.1 "extension."))) = true :=
  ⟨rfl, rfl⟩

/-- C4: on a group holding exactly `obs.coding.system = "http://x/sys1"`,
`obs.coding.code = "123"` and `obs.coding.display = "Foo"`, the simplifier
yields `obs.sys1 = "123"` and `obs.sys1.display = "Foo"`, and none of the
three original keys appear in the final mapping. -/
theorem coding_triple_example :
    simplify obsCtx =
      .ok ⟨[("obs.sys1", ⟨"obs.sys1", "123", ["Observation.code"]⟩),
            ("obs.sys1.display", ⟨"obs.sys1.display", "Foo", ["Observation.code"]⟩)]⟩ ∧
    lookupP ((simplify obsCtx).toOption.getD ⟨[]⟩).properties "obs.coding.system" = none ∧
    lookupP ((simplify obsCtx).toOption.getD ⟨[]⟩).properties "obs.coding.code" = none ∧
    lookupP ((simplify obsCtx).toOption.getD ⟨[]⟩).properties "obs.coding.display" = none :=
  ⟨rfl, rfl, rfl, rfl⟩

/-- C5: a group whose only key is `a.0.b` (so no key contains `a.1`) is
renamed to `a.b` with the value unchanged; a group with keys `a.0.b` and
`a.1.b` is left entirely unchanged. -/
theorem single_item_list_collapse_cases (gk x y : String) (L M : List String) :
    single_item_lists [(gk, [⟨"a.0.b", x, L⟩])] = [(gk, [⟨"a.b", x, L⟩])] ∧
    single_item_lists [(gk, [⟨"a.0.b", x, L⟩, ⟨"a.1.b", y, M⟩])] =
      [(gk, [⟨"a.0.b", x, L⟩, ⟨"a.1.b", y, M⟩])] := by
  constructor
  · show sILPassOnce (sILPassOnce (sILPassOnce _)) = _
    have h1 : sILPassOnce [(gk, [⟨"a.0.b", x, L⟩])] = [(gk, [⟨"a.b", x, L⟩])] := rfl
    have h2 : sILPassOnce [(gk, [⟨"a.b", x, L⟩])] = [(gk, [⟨"a.b", x, L⟩])] := rfl
    rw [h1, h2, h2]
  · show sILPassOnce (sILPassOnce (sILPassOnce _)) = _
    have h1 : sILPassOnce [(gk, [⟨"a.0.b", x, L⟩, ⟨"a.1.b", y, M⟩])] =
        [(gk, [⟨"a.0.b", x, L⟩, ⟨"a.1.b", y, M⟩])] := rfl
    rw [h1, h1, h1]

/-- C6: `single_item_lists` is exactly three applications of the per-group
rewrite sweep — a fixed bound, not a fixed point: a key nesting four
single-item arrays (`w.0.x.0.y.0.z.0.q`, each `0` denoting a single-element
array) still carries an uncollapsed `0` segment after the pass. -/
theorem single_item_lists_is_three_fixed_passes (v : String) (L : List String) :
    (∀ gs : Groups, single_item_lists gs = sILPassOnce (sILPassOnce (sILPassOnce gs))) ∧
    single_item_lists [("g", [⟨"w.0.x.0.y.0.z.0.q", v, L⟩])] =
      [("g", [⟨"w.x.y.z.0.q", v, L⟩])] ∧
    (strSplit "w.x.y.z.0.q" '.').contains "0" = true := by
  refine ⟨fun _ => rfl, ?_, rfl⟩
  show sILPassOnce (sILPassOnce (sILPassOnce _)) = _
  have h1 : sILPassOnce [("g", [⟨"w.0.x.0.y.0.z.0.q", v, L⟩])] =
      [("g", [⟨"w.x.0.y.0.z.0.q", v, L⟩])] := rfl
  have h2 : sILPassOnce [("g", [⟨"w.x.0.y.0.z.0.q", v, L⟩])] =
      [("g", [⟨"w.x.y.0.z.0.q", v, L⟩])] := rfl
  have h3 : sILPassOnce [("g", [⟨"w.x.y.0.z.0.q", v, L⟩])] =
      [("g", [⟨"w.x.y.z.0.q", v, L⟩])] := rfl
  rw [h1, h2, h3]

/-- C7: `simplify` on a context with an empty property mapping fails
immediately with the precondition violation (`assert context.properties`),
attempting no simplification pass. -/
theorem simplify_empty_properties_fails (ctx : TransformerContext)
    (h : ctx.properties = []) : simplify ctx = .error "AssertionError" := by
  simp [simplify, h]

/-- Witness for C7 at the concrete empty context. -/
theorem simplify_empty_properties_fails_witness :
    simplify ⟨[]⟩ = .error "AssertionError" :=
  simplify_empty_properties_fails ⟨[]⟩ rfl

/-- C1 counterexample: on a group whose first sub-extension has a `url`
but neither a `valueCoding.code` nor a `valueString` property, the
extension pass raises (`deepcopy(None)` followed by an attribute write on
`None`) instead of skipping the entry and continuing. -/
theorem extension_missing_value_cex :
    extensions noValueExtGroup = .error "AttributeError" := rfl

/-- C2 counterexample: on a group holding a `.coding.system` and a
`.coding.display` key but no `.coding.code` key, the coding pass reads the
never-assigned local `system_value` and raises instead of emitting the
display clone. -/
theorem coding_display_without_code_cex :
    codings displayNoCodeGroup = .error "NameError" := rfl

/-- C1 (amended): for a sub-extension entry that the existence scan finds
but which has neither a `valueCoding.code` nor a `valueString` property,
the extension pass does not skip the entry — it fails (the `AttributeError`
of the attribute write on `deepcopy(None)`), producing no output. -/
theorem extension_missing_value_fails (k : String) (ps : List Property) (u su : Property)
    (hk : strEndsWith k "extension" = true)
    (h0 : (extScanKeys ps 0).length ≠ 0)
    (hu : findKey ps (extUrlKey 0) = some u)
    (hs0 : (subScanKeys ps 0 0).length ≠ 0)
    (hsu : findKey ps (subUrlKey 0 0) = some su)
    (hnc : findKey ps (subCodeKey 0 0) = none)
    (hns : findKey ps (subStringKey 0 0) = none) :
    extensions [(k, ps)] = .error "AttributeError" := by
  have hstep : ∀ en, subExtStep ps 0 en 0 = .error "AttributeError" := by
    intro en
    simp [subExtStep, hs0, hsu, hnc, hns]
  have hfuel : extFuel ps = (2 * totalKeyLen ps + 1) + 1 := rfl
  simp [extensions, extGroupsLoop, hk, hfuel, extLoop, h0, hu, subExtLoop, hstep]

/-- Witness for the amended C1 at a concrete value-less sub-extension. -/
theorem extension_missing_value_fails_witness :
    extensions [("X.extension",
      [mkP "extension.0.url" "http://a/race" "X.extension",
       mkP "extension.0.extension.0.url" "http://a/text" "X.extension"])] =
      .error "AttributeError" :=
  extension_missing_value_fails "X.extension"
    [mkP "extension.0.url" "http://a/race" "X.extension",
     mkP "extension.0.extension.0.url" "http://a/text" "X.extension"]
    (mkP "extension.0.url" "http://a/race" "X.extension")
    (mkP "extension.0.extension.0.url" "http://a/text" "X.extension")
    rfl (by decide) rfl (by decide) rfl rfl rfl

/-- C2 (amended): when the coding pass finds a `.coding.system`, a
`.coding.code` *and* a `.coding.display` key in a group, it emits a clone
of the display property under `<base_key>.<system_tag>.display` (which
survives into the group's output provided that new key does not collide
with one of the removed original coding keys); without a `.coding.code`
key no `system_tag` has been computed and the pass fails instead. -/
theorem coding_display_with_code_emits (k ks kc kd : String) (ps : List Property)
    (s c d : Property)
    (hs : (codingKeys ps).find? (fun t => strEndsWith t ".coding.system") = some ks)
    (hc : (codingKeys ps).find? (fun t => strEndsWith t ".coding.code") = some kc)
    (hd : (codingKeys ps).find? (fun t => strEndsWith t ".coding.display") = some kd)
    (hsp : findKey ps ks = some s)
    (hcp : findKey ps kc = some c)
    (hdp : findKey ps kd = some d)
    (hfresh : ([ks, kc, kd].contains
      ((replaceAllStr s.flattened_key ".coding.system" "") ++ "." ++
        lastSeg s.value '/' ++ ".display")) = false) :
    ∃ ps', codings [(k, ps)] = .ok [(k, ps')] ∧
      { d with flattened_key :=
          (replaceAllStr s.flattened_key ".coding.system" "") ++ "." ++
            lastSeg s.value '/' ++ ".display" } ∈ ps' := by
  have hne : (codingKeys ps).length > 0 := by
    cases h : codingKeys ps with
    | nil => rw [h] at hs; simp at hs
    | cons a l => simp [h]
  refine ⟨?_, ?_, ?_⟩
  · exact (ps ++ [{ c with flattened_key :=
      (replaceAllStr s.flattened_key ".coding.system" "") ++ "." ++ lastSeg s.value '/' }] ++
      [{ d with flattened_key :=
        (replaceAllStr s.flattened_key ".coding.system" "") ++ "." ++
          lastSeg s.value '/' ++ ".display" }]).filter
      (fun p => !([ks, kc, kd].contains p.flattened_key))
  · simp [codings, codingsLoop, codGroupStep, optFindKey, fromCodePair,
      hne, hs, hc, hd, hsp, hcp, hdp]
  · rw [List.mem_filter]
    refine ⟨by simp, ?_⟩
    simp only [hfresh]
    rfl

/-- C8: root-grouping fails loudly (`IndexError`) as soon as some property
has an empty `leaf_elements` sequence; when every property has at least
one descriptor, it returns the mapping sending each root id to exactly the
properties whose `leaf_elements[0].id` is that root, in input order. -/
theorem group_by_root_spec (props : List Property) :
    ((∃ p ∈ props, p.leaf_elements = []) → group_by_root props = .error "IndexError") ∧
    ((∀ p ∈ props, p.leaf_elements ≠ []) →
      ∃ gs, group_by_root props = .ok gs ∧
        ∀ r, lookupG gs r =
          if (props.filter (fun p => rootId p == r)).isEmpty then none
          else some (props.filter (fun p => rootId p == r))) := by
  constructor
  · exact fun h => groupByRootAux_err props [] h
  · intro h
    obtain ⟨gs, hok, hch⟩ := groupByRootAux_ok props [] h
    refine ⟨gs, hok, fun r => ?_⟩
    rw [hch r]
    cases hc : props.filter (fun p => rootId p == r) with
    | nil => simp [combineOpt, lookupG_nil]
    | cons a l => simp [combineOpt, lookupG_nil]

/-- Witness for C8: both conjuncts instantiated at concrete property lists. -/
theorem group_by_root_spec_witness :
    group_by_root [(⟨"x.y", "v", []⟩ : Property)] = .error "IndexError" ∧
    (∃ gs, group_by_root [mkP "a.b" "1" "R"] = .ok gs ∧
      ∀ r, lookupG gs r =
        if ([mkP "a.b" "1" "R"].filter (fun p => rootId p == r)).isEmpty then none
        else some ([mkP "a.b" "1" "R"].filter (fun p => rootId p == r))) :=
  ⟨(group_by_root_spec [(⟨"x.y", "v", []⟩ : Property)]).1 ⟨⟨"x.y", "v", []⟩, by simp, rfl⟩,
   (group_by_root_spec [mkP "a.b" "1" "R"]).2 (by decide)⟩

/-- C9: write-back is last-write-wins -- the final mapping holds at most
one property per key (its key list is duplicate-free), and looking a key
up yields exactly the last property carrying that flattened key in group
processing order, so on a cross-group collision the later-processed group
overwrites the earlier one. -/
theorem flatten_last_write_wins (gs : Groups) (r : String) :
    (keysOf (flattenGroups gs)).Nodup ∧
    lookupP (flattenGroups gs) r = lastWrite (allProps gs) r := by
  constructor
  · exact keys_flattenGroupsAux_nodup gs [] List.nodup_nil
  · rw [flattenGroups, lookupP_flattenGroupsAux]
    rfl

/-- Witness for the amended C2 at a concrete full coding triple. -/
theorem coding_display_with_code_emits_witness :
    ∃ ps', codings [("Observation.code",
      [mkP "obs.coding.system" "http://x/sys1" "Observation.code",
       mkP "obs.coding.code" "123" "Observation.code",
       mkP "obs.coding.display" "Foo" "Observation.code"])] =
        .ok [("Observation.code", ps')] ∧
      (⟨"obs.sys1.display", "Foo", ["Observation.code"]⟩ : Property) ∈ ps' :=
  coding_display_with_code_emits "Observation.code"
    "obs.coding.system" "obs.coding.code" "obs.coding.display"
    [mkP "obs.coding.system" "http://x/sys1" "Observation.code",
     mkP "obs.coding.code" "123" "Observation.code",
     mkP "obs.coding.display" "Foo" "Observation.code"]
    (mkP "obs.coding.system" "http://x/sys1" "Observation.code")
    (mkP "obs.coding.code" "123" "Observation.code")
    (mkP "obs.coding.display" "Foo" "Observation.code")
    rfl rfl rfl rfl rfl rfl rfl

/-- C10: whenever `simplify` returns normally, every property in the
output mapping carries the value of some property of the input mapping:
each pass only rewrites keys in place or emits clones that differ from an
existing property in their key alone — no pass fabricates or alters a
value. -/
theorem simplify_preserves_values (ctx out : TransformerContext)
    (h : simplify ctx = .ok out) :
    ∀ kv ∈ out.properties, ∃ kv2 ∈ ctx.properties, kv.2.value = kv2.2.value := by
  intro kv hkv
  rw [simplify] at h
  split at h
  · cases h
  · split at h
    · cases h
    · rename_i g1 hg1
      split at h
      · cases h
      · rename_i g2 hg2
        split at h
        · cases h
        · rename_i g4 hg4
          cases h
          have h1 : kv.2 ∈ allProps g4 := by
            rcases mem_flattenGroupsAux kv g4 [] hkv with h2 | h2
            · cases h2
            · exact h2
          obtain ⟨p3, hp3, hv3⟩ := codings_mem (single_item_lists g2) g4 kv.2 hg4 h1
          obtain ⟨p2, hp2, hv2⟩ := single_item_lists_mem g2 p3 hp3
          obtain ⟨p1, hp1, hv1⟩ := extensions_mem g1 g2 p2 hg2 hp2
          rw [group_by_root] at hg1
          rcases groupByRootAux_mem p1 (ctx.properties.map (fun kv => kv.2)) [] g1 hg1 hp1
            with h2 | h2
          · cases h2
          · obtain ⟨kv2, hkv2, he⟩ := List.mem_map.mp h2
            exact ⟨kv2, hkv2, by rw [hv3, hv2, hv1, ← he]⟩

/-- Witness for C10 at a concrete one-property context and output entry. -/
theorem simplify_preserves_values_witness :
    ∃ kv2 ∈ (⟨[("a.b", mkP "a.b" "vv" "R")]⟩ : TransformerContext).properties,
      ("a.b", mkP "a.b" "vv" "R").2.value = kv2.2.value :=
  simplify_preserves_values ⟨[("a.b", mkP "a.b" "vv" "R")]⟩
    ⟨[("a.b", mkP "a.b" "vv" "R")]⟩ rfl ("a.b", mkP "a.b" "vv" "R")
    (List.mem_singleton.mpr rfl)

end PfbFhir
